import Mathlib

/-!
# Verification of the line-rasterization core of `src/Test2/main.cpp`

Shallow embedding of the four core operations of the repository:

* `bresenhamLine`   — the integer Bresenham rasterizer (`main.cpp:41-61`);
* `xiaolinWuLine`   — the Xiaolin Wu antialiased rasterizer (`main.cpp:64-195`);
* `normalize`       — the pixel-center NDC mapping inlined at every emission site;
* `generateLines`   — the radial pattern generator (`main.cpp:28-37`).

Float arithmetic of the source is modelled exactly over `ℚ` (the trigonometric
endpoints of `generateLines` over `ℝ`, since `cos`/`sin` have no exact rational
embedding).  The unbounded `while (true)` loop of `bresenhamLine` and the
`for (angle …)` loop of `generateLines` are modelled with explicit fuel and an
`Option` result: `none` records that the fuel ran out before the loop finished,
so termination of the C++ loop is the theorem that the result is `some _`.
-/

namespace BresenhamWu

/-- Pixel-center normalized-device-coordinate mapping that `main.cpp` inlines at
every emission site: `(2.0f * (c + 0.5f)) / d - 1.0f`. -/
def normalize (c : ℚ) (d : ℤ) : ℚ := 2 * (c + 1 / 2) / d - 1

/-- Body of the `while (true)` loop of `bresenhamLine` (`main.cpp:48-58`).
Each iteration pushes the NDC pair of the current pixel, breaks once the end
pixel has been emitted, and otherwise updates `(x0, y0, err)` from the doubled
error term exactly as the source does. -/
def bresenhamGo (x1 y1 dx dy sx sy w h : ℤ) : ℕ → ℤ → ℤ → ℤ → Option (List (ℚ × ℚ))
  | 0, _, _, _ => none
  | fuel + 1, x0, y0, err =>
      let v : ℚ × ℚ := (normalize (x0 : ℚ) w, normalize (y0 : ℚ) h)
      if x0 = x1 ∧ y0 = y1 then
        some [v]
      else
        let e2 := 2 * err
        let errx := if dy ≤ e2 then err + dy else err
        let x0' := if dy ≤ e2 then x0 + sx else x0
        let err' := if e2 ≤ dx then errx + dx else errx
        let y0' := if e2 ≤ dx then y0 + sy else y0
        (bresenhamGo x1 y1 dx dy sx sy w h fuel x0' y0' err').map (v :: ·)

/-- Model of `bresenhamLine` (`main.cpp:41-61`): integer Bresenham stepping,
NDC conversion per emitted pixel.  The fuel `|x1-x0| + |y1-y0| + 1` is an upper
bound for the iteration count of the source's unbounded loop; the theorems
below prove it is never exhausted. -/
def bresenhamLine (x0 y0 x1 y1 w h : ℤ) : Option (List (ℚ × ℚ)) :=
  let dx := |x1 - x0|
  let sx : ℤ := if x0 < x1 then 1 else -1
  let dy := -|y1 - y0|
  let sy : ℤ := if y0 < y1 then 1 else -1
  bresenhamGo x1 y1 dx dy sx sy w h ((x1 - x0).natAbs + (y1 - y0).natAbs + 1) x0 y0 (dx + dy)

/-- The `Vertex` record pushed by `xiaolinWuLine` (`main.cpp:16-20`). -/
structure WuVertex where
  x : ℚ
  y : ℚ
  r : ℚ
  g : ℚ
  b : ℚ
  alpha : ℚ
  deriving DecidableEq, Repr

/-- Floor-based fractional part, the `fpart` lambda of `main.cpp:72`. -/
def fpart (x : ℚ) : ℚ := x - ⌊x⌋

/-- Reverse fractional part, the `rfpart` lambda of `main.cpp:77`. -/
def rfpart (x : ℚ) : ℚ := 1 - fpart x

/-- Steepness test of `main.cpp:82`: absolute vertical extent strictly exceeds
absolute horizontal extent. -/
def wuSteep (x0 y0 x1 y1 : ℚ) : Bool := |y1 - y0| > |x1 - x0|

/-- Working endpoints `(X0, Y0, X1, Y1)` after the two swaps of
`main.cpp:84-92`: transpose the axes when steep, then order by the primary
coordinate. -/
def wuWork (x0 y0 x1 y1 : ℚ) : ℚ × ℚ × ℚ × ℚ :=
  let X0 := if wuSteep x0 y0 x1 y1 then y0 else x0
  let Y0 := if wuSteep x0 y0 x1 y1 then x0 else y0
  let X1 := if wuSteep x0 y0 x1 y1 then y1 else x1
  let Y1 := if wuSteep x0 y0 x1 y1 then x1 else y1
  if X0 > X1 then (X1, Y1, X0, Y0) else (X0, Y0, X1, Y1)

/-- Gradient of `main.cpp:97-99`, with the degenerate `dx == 0` case pinned
to `1`. -/
def wuGradient (X0 Y0 X1 Y1 : ℚ) : ℚ :=
  if X1 - X0 = 0 then 1 else (Y1 - Y0) / (X1 - X0)

/-- Secondary-axis intersection at the first endpoint's column
(`yend` of `main.cpp:106`, with `xend = floor(X0)`). -/
def wuYend1 (X0 Y0 X1 Y1 : ℚ) : ℚ :=
  Y0 + wuGradient X0 Y0 X1 Y1 * ((⌊X0⌋ : ℚ) - X0)

/-- Secondary-axis intersection at the second endpoint's column
(`yend` of `main.cpp:138`, with `xend = ceil(X1)`). -/
def wuYend2 (X0 Y0 X1 Y1 : ℚ) : ℚ :=
  Y1 + wuGradient X0 Y0 X1 Y1 * ((⌈X1⌉ : ℚ) - X1)

/-- Two-pixel coverage split emitted for an endpoint (`main.cpp:115-132` and
`main.cpp:143-160`): lower pixel gets `rfpart(yend) * xgap`, upper pixel gets
`fpart(yend) * xgap`, with the axes swapped back when steep. -/
def wuEndpointPair (w h : ℤ) (r g b : ℚ) (steep : Bool) (xpxl ypxl : ℤ)
    (yendv xgap : ℚ) : List WuVertex :=
  if steep then
    [⟨normalize (ypxl : ℚ) w, normalize (xpxl : ℚ) h, r, g, b, rfpart yendv * xgap⟩,
     ⟨normalize ((ypxl : ℚ) + 1) w, normalize (xpxl : ℚ) h, r, g, b, fpart yendv * xgap⟩]
  else
    [⟨normalize (xpxl : ℚ) w, normalize (ypxl : ℚ) h, r, g, b, rfpart yendv * xgap⟩,
     ⟨normalize (xpxl : ℚ) w, normalize ((ypxl : ℚ) + 1) h, r, g, b, fpart yendv * xgap⟩]

/-- Main sweep of `xiaolinWuLine` (`main.cpp:165-192`): one coverage-split pair
per interior column, `intery` advancing by the gradient each iteration.  The
iteration count `n` stands for the trip count of
`for (int x = int(xpxl1)+1; x < int(xpxl2); ++x)`. -/
def wuLoop (w h : ℤ) (r g b gradient : ℚ) (steep : Bool) :
    ℕ → ℤ → ℚ → List WuVertex
  | 0, _, _ => []
  | n + 1, x, intery =>
      (if steep then
        [⟨normalize ((⌊intery⌋ : ℚ)) w, normalize (x : ℚ) h, r, g, b, rfpart intery⟩,
         ⟨normalize ((⌊intery⌋ : ℚ) + 1) w, normalize (x : ℚ) h, r, g, b, fpart intery⟩]
      else
        [⟨normalize (x : ℚ) w, normalize ((⌊intery⌋ : ℚ)) h, r, g, b, rfpart intery⟩,
         ⟨normalize (x : ℚ) w, normalize ((⌊intery⌋ : ℚ) + 1) h, r, g, b, fpart intery⟩]) ++
      wuLoop w h r g b gradient steep n (x + 1) (intery + gradient)

/-- Body of `xiaolinWuLine` after orientation normalization
(`main.cpp:97-194`): the two endpoint splits followed by the main sweep.
`xgap` for the first endpoint is `1 - (X0 - floor(X0))`, for the second
`1 - (X1 - ceil(X1))`, exactly as on `main.cpp:107` and `main.cpp:139`. -/
def wuAfterSwap (X0 Y0 X1 Y1 : ℚ) (w h : ℤ) (r g b : ℚ) (steep : Bool) :
    List WuVertex :=
  let gradient := wuGradient X0 Y0 X1 Y1
  let yend1 := wuYend1 X0 Y0 X1 Y1
  let xgap1 := 1 - (X0 - (⌊X0⌋ : ℚ))
  let yend2 := wuYend2 X0 Y0 X1 Y1
  let xgap2 := 1 - (X1 - (⌈X1⌉ : ℚ))
  wuEndpointPair w h r g b steep ⌊X0⌋ ⌊yend1⌋ yend1 xgap1 ++
    (wuEndpointPair w h r g b steep ⌈X1⌉ ⌊yend2⌋ yend2 xgap2 ++
      wuLoop w h r g b gradient steep (⌈X1⌉ - ⌊X0⌋ - 1).toNat (⌊X0⌋ + 1)
        (yend1 + gradient))

/-- Working `X0` of `main.cpp` after the swaps of lines 84-92. -/
def wuX0 (x0 y0 x1 y1 : ℚ) : ℚ := (wuWork x0 y0 x1 y1).1

/-- Working `Y0` of `main.cpp` after the swaps of lines 84-92. -/
def wuY0 (x0 y0 x1 y1 : ℚ) : ℚ := (wuWork x0 y0 x1 y1).2.1

/-- Working `X1` of `main.cpp` after the swaps of lines 84-92. -/
def wuX1 (x0 y0 x1 y1 : ℚ) : ℚ := (wuWork x0 y0 x1 y1).2.2.1

/-- Working `Y1` of `main.cpp` after the swaps of lines 84-92. -/
def wuY1 (x0 y0 x1 y1 : ℚ) : ℚ := (wuWork x0 y0 x1 y1).2.2.2

/-- Model of `xiaolinWuLine` (`main.cpp:64-195`). -/
def xiaolinWuLine (x0 y0 x1 y1 : ℚ) (w h : ℤ) (r g b : ℚ) : List WuVertex :=
  wuAfterSwap (wuX0 x0 y0 x1 y1) (wuY0 x0 y0 x1 y1)
    (wuX1 x0 y0 x1 y1) (wuY1 x0 y0 x1 y1) w h r g b
    (wuSteep x0 y0 x1 y1)

/-- Sums of the coverage values of consecutive sample pairs; `xiaolinWuLine`
emits its output exclusively as such two-pixel split pairs. -/
def pairSums : List WuVertex → List ℚ
  | a :: b :: rest => (a.alpha + b.alpha) :: pairSums rest
  | _ => []

/-- Angle sequence of the `for (int angle = 0; angle < 360; angle += angleStep)`
loop of `generateLines` (`main.cpp:30`), with explicit fuel: `none` records
that the loop had not finished after `fuel` iterations. -/
def radialAngles (step : ℤ) : ℕ → ℤ → Option (List ℤ)
  | 0, angle => if angle < 360 then none else some []
  | fuel + 1, angle =>
      if angle < 360 then
        (radialAngles step fuel (angle + step)).map (angle :: ·)
      else
        some []

/-- The `Line` record of `main.cpp:23-25`, over `ℝ` because its endpoints come
from `cos`/`sin`. -/
structure RadialLine where
  x0 : ℝ
  y0 : ℝ
  x1 : ℝ
  y1 : ℝ

/-- Segment pushed for one angle by `generateLines` (`main.cpp:31-34`): degree
to radian conversion uses the source's constant `3.14159`, not `π`. -/
noncomputable def lineAt (x0 y0 radius : ℤ) (angle : ℤ) : RadialLine :=
  let rad : ℝ := (angle : ℝ) * 3.14159 / 180
  ⟨(x0 : ℝ), (y0 : ℝ),
   (x0 : ℝ) + (radius : ℝ) * Real.cos rad,
   (y0 : ℝ) + (radius : ℝ) * Real.sin rad⟩

/-- Model of `generateLines` (`main.cpp:28-37`).  Fuel `360` is enough for any
positive step; for `step ≤ 0` the source loop runs forever and the model
returns `none` for every fuel. -/
noncomputable def generateLines (x0 y0 radius step : ℤ) : Option (List RadialLine) :=
  (radialAngles step 360 0).map (List.map (lineAt x0 y0 radius))

end BresenhamWu

namespace BresenhamWu

lemma bresenhamGo_succ (x1 y1 dx dy sx sy w h : ℤ) (fuel : ℕ) (x0 y0 err : ℤ) :
    bresenhamGo x1 y1 dx dy sx sy w h (fuel + 1) x0 y0 err =
      if x0 = x1 ∧ y0 = y1 then
        some [(normalize (x0 : ℚ) w, normalize (y0 : ℚ) h)]
      else
        (bresenhamGo x1 y1 dx dy sx sy w h fuel
            (if dy ≤ 2 * err then x0 + sx else x0)
            (if 2 * err ≤ dx then y0 + sy else y0)
            ((if 2 * err ≤ dx then (if dy ≤ 2 * err then err + dy else err) + dx
              else (if dy ≤ 2 * err then err + dy else err)))).map
          ((normalize (x0 : ℚ) w, normalize (y0 : ℚ) h) :: ·) := by
  rfl

lemma bresenhamGo_step_xy (x1 y1 dx dy sx sy w h : ℤ) (fuel : ℕ) (x0 y0 err : ℤ)
    (hne : ¬(x0 = x1 ∧ y0 = y1)) (hx : dy ≤ 2 * err) (hy : 2 * err ≤ dx) :
    bresenhamGo x1 y1 dx dy sx sy w h (fuel + 1) x0 y0 err =
      (bresenhamGo x1 y1 dx dy sx sy w h fuel (x0 + sx) (y0 + sy) (err + dy + dx)).map
        ((normalize (x0 : ℚ) w, normalize (y0 : ℚ) h) :: ·) := by
  simp [bresenhamGo_succ, hne, hx, hy]

lemma bresenhamGo_step_x (x1 y1 dx dy sx sy w h : ℤ) (fuel : ℕ) (x0 y0 err : ℤ)
    (hne : ¬(x0 = x1 ∧ y0 = y1)) (hx : dy ≤ 2 * err) (hy : ¬2 * err ≤ dx) :
    bresenhamGo x1 y1 dx dy sx sy w h (fuel + 1) x0 y0 err =
      (bresenhamGo x1 y1 dx dy sx sy w h fuel (x0 + sx) y0 (err + dy)).map
        ((normalize (x0 : ℚ) w, normalize (y0 : ℚ) h) :: ·) := by
  simp [bresenhamGo_succ, hne, hx, hy]

/-- Bresenham loop invariant proof, primary-axis-major case: with `a` x-steps
and `b` y-steps remaining, the error term in its closed form, and the running
error within its invariant band, the loop finishes in exactly `a + 1`
iterations, emitting the start pixel first and the end pixel last. -/
lemma bresenhamGo_spec_xmajor (x1 y1 dx dy sx sy w h : ℤ)
    (hsx : sx = 1 ∨ sx = -1) (_hsy : sy = 1 ∨ sy = -1)
    (hdy : dy ≤ 0) (hmaj : -dy ≤ dx) :
    ∀ (a fuel b : ℕ) (x0 y0 err : ℤ),
      a + 1 ≤ fuel →
      x0 = x1 - sx * (a : ℤ) →
      y0 = y1 - sy * (b : ℤ) →
      (a : ℤ) ≤ dx →
      (b : ℤ) ≤ -dy →
      err = dx + dy + (a : ℤ) * (-dy) - (b : ℤ) * dx →
      -dy - 2 * dx ≤ 2 * ((a : ℤ) * (-dy) - (b : ℤ) * dx) →
      2 * ((a : ℤ) * (-dy) - (b : ℤ) * dx) ≤ dx →
      ∃ l, bresenhamGo x1 y1 dx dy sx sy w h fuel x0 y0 err = some l ∧
        l.length = a + 1 ∧
        l.head? = some (normalize (x0 : ℚ) w, normalize (y0 : ℚ) h) ∧
        l.getLast? = some (normalize (x1 : ℚ) w, normalize (y1 : ℚ) h) := by
  have hdx : (0 : ℤ) ≤ dx := le_trans (by linarith) hmaj
  intro a
  induction a with
  | zero =>
    intro fuel b x0 y0 err hfuel hx0 hy0 _ hbE herr hlow _
    -- with no x-steps left, the invariant forces b = 0 as well
    have hb : b = 0 := by
      by_contra hb
      have hb1 : (1 : ℤ) ≤ (b : ℤ) := by exact_mod_cast Nat.one_le_iff_ne_zero.mpr hb
      have hBdx : (1 : ℤ) * dx ≤ (b : ℤ) * dx := mul_le_mul_of_nonneg_right hb1 hdx
      simp only [Nat.cast_zero, zero_mul, zero_sub] at hlow
      linarith
    subst hb
    obtain ⟨f, rfl⟩ : ∃ f, fuel = f + 1 := ⟨fuel - 1, by omega⟩
    have hx : x0 = x1 := by simpa using hx0
    have hy : y0 = y1 := by simpa using hy0
    refine ⟨[(normalize (x0 : ℚ) w, normalize (y0 : ℚ) h)], ?_, by simp, by simp, ?_⟩
    · rw [bresenhamGo_succ, if_pos ⟨hx, hy⟩]
    · simp [hx, hy]
  | succ aa ih =>
    intro fuel b x0 y0 err hfuel hx0 hy0 haD hbE herr hlow hupp
    obtain ⟨f, rfl⟩ : ∃ f, fuel = f + 1 := ⟨fuel - 1, by omega⟩
    have hfuel' : aa + 1 ≤ f := by omega
    have hE : (0 : ℤ) ≤ -dy := by linarith
    have hA : (0 : ℤ) ≤ (aa : ℤ) * (-dy) := mul_nonneg (by exact_mod_cast Nat.zero_le aa) hE
    have hcast : ((aa + 1 : ℕ) : ℤ) * (-dy) = (aa : ℤ) * (-dy) + -dy := by push_cast; ring
    rw [hcast] at hlow hupp herr
    -- the current pixel is not yet the end pixel
    have hne : ¬(x0 = x1 ∧ y0 = y1) := by
      rintro ⟨hx, -⟩
      rcases hsx with rfl | rfl
      · rw [hx] at hx0; omega
      · rw [hx] at hx0; omega
    -- the x-step always fires in the x-major case
    have hxfire : dy ≤ 2 * err := by rw [herr]; linarith
    by_cases hyfire : 2 * err ≤ dx
    · -- both axes step; b must be positive
      obtain ⟨bb, rfl⟩ : ∃ bb, b = bb + 1 := by
        rcases Nat.eq_zero_or_pos b with rfl | hb
        · exfalso
          simp only [Nat.cast_zero, zero_mul, sub_zero] at herr hupp
          rw [herr] at hyfire
          have : (aa : ℤ) + 1 ≤ dx := by exact_mod_cast haD
          linarith
        · exact ⟨b - 1, by omega⟩
      have hcastb : ((bb + 1 : ℕ) : ℤ) * dx = (bb : ℤ) * dx + dx := by push_cast; ring
      rw [hcastb] at hlow hupp herr
      rw [bresenhamGo_step_xy x1 y1 dx dy sx sy w h f x0 y0 err hne hxfire hyfire]
      obtain ⟨l, hl, hlen, hhead, hlast⟩ :=
        ih f bb (x0 + sx) (y0 + sy) (err + dy + dx)
          hfuel'
          (by rw [hx0]; push_cast; ring)
          (by rw [hy0]; push_cast; ring)
          (by push_cast at haD ⊢; linarith)
          (by push_cast at hbE ⊢; linarith)
          (by rw [herr]; ring)
          (by linarith)
          (by linarith)
      rw [hl]
      refine ⟨_ :: l, rfl, by simp [hlen], by simp, ?_⟩
      cases l with
      | nil => simp at hlen
      | cons hd tl => rw [List.getLast?_cons_cons]; exact hlast
    · -- only the x-axis steps
      rw [bresenhamGo_step_x x1 y1 dx dy sx sy w h f x0 y0 err hne hxfire hyfire]
      rw [herr] at hyfire
      obtain ⟨l, hl, hlen, hhead, hlast⟩ :=
        ih f b (x0 + sx) y0 (err + dy)
          hfuel'
          (by rw [hx0]; push_cast; ring)
          hy0
          (by push_cast at haD ⊢; linarith)
          hbE
          (by rw [herr]; ring)
          (by push_neg at hyfire; linarith)
          (by linarith)
      rw [hl]
      refine ⟨_ :: l, rfl, by simp [hlen], by simp, ?_⟩
      cases l with
      | nil => simp at hlen
      | cons hd tl => rw [List.getLast?_cons_cons]; exact hlast

end BresenhamWu

namespace BresenhamWu

lemma lastOption_map {α β : Type} (f : α → β) (l : List α) :
    (l.map f).getLast? = l.getLast?.map f := by
  induction l with
  | nil => rfl
  | cons a t ih =>
    cases t with
    | nil => rfl
    | cons b u => simpa [List.getLast?_cons_cons] using ih

/-- Axis-swap symmetry of the Bresenham loop: running it with the two
coordinate roles exchanged (and the error negated) produces the coordinate-
swapped sample list. -/
lemma bresenhamGo_swap (x1 y1 dx dy sx sy w h : ℤ) :
    ∀ (fuel : ℕ) (x0 y0 err : ℤ),
      bresenhamGo x1 y1 dx dy sx sy w h fuel x0 y0 err =
        (bresenhamGo y1 x1 (-dy) (-dx) sy sx h w fuel y0 x0 (-err)).map
          (List.map Prod.swap) := by
  intro fuel
  induction fuel with
  | zero => intro x0 y0 err; rfl
  | succ f ih =>
    intro x0 y0 err
    rw [bresenhamGo_succ, bresenhamGo_succ]
    by_cases hend : x0 = x1 ∧ y0 = y1
    · rw [if_pos hend, if_pos ⟨hend.2, hend.1⟩]; rfl
    · rw [if_neg hend, if_neg (show ¬(y0 = y1 ∧ x0 = x1) from fun hc => hend ⟨hc.2, hc.1⟩)]
      have e1 : (-dx ≤ 2 * -err) = (2 * err ≤ dx) := by
        apply propext; omega
      have e2 : (2 * -err ≤ -dy) = (dy ≤ 2 * err) := by
        apply propext; omega
      simp only [e1, e2]
      by_cases hxf : dy ≤ 2 * err <;> by_cases hyf : 2 * err ≤ dx
      · simp only [if_pos hxf, if_pos hyf]
        rw [show -err + -dx + -dy = -(err + dy + dx) by ring, ih]
        simp [Option.map_map, Function.comp_def]
      · simp only [if_pos hxf, if_neg hyf]
        rw [show -err + -dy = -(err + dy) by ring, ih]
        simp [Option.map_map, Function.comp_def]
      · simp only [if_neg hxf, if_pos hyf]
        rw [show -err + -dx = -(err + dx) by ring, ih]
        simp [Option.map_map, Function.comp_def]
      · simp only [if_neg hxf, if_neg hyf]
        rw [ih]
        simp [Option.map_map, Function.comp_def]

/-- Full specification of `bresenhamLine`: the loop always terminates within
its fuel, emits exactly `max |Δx| |Δy| + 1` samples, starts at the normalized
start pixel and ends at the normalized end pixel. -/
lemma bresenhamLine_spec (x0 y0 x1 y1 w h : ℤ) :
    ∃ l, bresenhamLine x0 y0 x1 y1 w h = some l ∧
      l.length = max (x1 - x0).natAbs (y1 - y0).natAbs + 1 ∧
      l.head? = some (normalize (x0 : ℚ) w, normalize (y0 : ℚ) h) ∧
      l.getLast? = some (normalize (x1 : ℚ) w, normalize (y1 : ℚ) h) := by
  have habsx : ((x1 - x0).natAbs : ℤ) = |x1 - x0| := (Int.abs_eq_natAbs _).symm
  have habsy : ((y1 - y0).natAbs : ℤ) = |y1 - y0| := (Int.abs_eq_natAbs _).symm
  have hsx : (if x0 < x1 then (1 : ℤ) else -1) = 1 ∨
      (if x0 < x1 then (1 : ℤ) else -1) = -1 := by split_ifs <;> simp
  have hsy : (if y0 < y1 then (1 : ℤ) else -1) = 1 ∨
      (if y0 < y1 then (1 : ℤ) else -1) = -1 := by split_ifs <;> simp
  have hx0 : x0 = x1 - (if x0 < x1 then (1 : ℤ) else -1) * ((x1 - x0).natAbs : ℤ) := by
    split_ifs <;> omega
  have hy0 : y0 = y1 - (if y0 < y1 then (1 : ℤ) else -1) * ((y1 - y0).natAbs : ℤ) := by
    split_ifs <;> omega
  by_cases hmaj : |y1 - y0| ≤ |x1 - x0|
  · -- x-major: apply the invariant lemma directly
    obtain ⟨l, hl, hlen, hhead, hlast⟩ :=
      bresenhamGo_spec_xmajor x1 y1 |x1 - x0| (-|y1 - y0|)
        (if x0 < x1 then 1 else -1) (if y0 < y1 then 1 else -1) w h hsx hsy
        (by simp [abs_nonneg]) (by simpa using hmaj)
        (x1 - x0).natAbs ((x1 - x0).natAbs + (y1 - y0).natAbs + 1) (y1 - y0).natAbs
        x0 y0 (|x1 - x0| + -|y1 - y0|)
        (by omega) hx0 hy0
        (by rw [habsx]) (by rw [habsy]; simp)
        (by rw [habsx, habsy]; ring)
        (by rw [habsx, habsy]; nlinarith [abs_nonneg (x1 - x0), abs_nonneg (y1 - y0)])
        (by rw [habsx, habsy]; nlinarith [abs_nonneg (x1 - x0), abs_nonneg (y1 - y0)])
    refine ⟨l, ?_, ?_, hhead, hlast⟩
    · simpa [bresenhamLine] using hl
    · rw [hlen]; congr 1; omega
  · -- y-major: transfer along the axis-swap symmetry
    push_neg at hmaj
    obtain ⟨l, hl, hlen, hhead, hlast⟩ :=
      bresenhamGo_spec_xmajor y1 x1 |y1 - y0| (-|x1 - x0|)
        (if y0 < y1 then 1 else -1) (if x0 < x1 then 1 else -1) h w hsy hsx
        (by simp [abs_nonneg]) (by simpa using hmaj.le)
        (y1 - y0).natAbs ((x1 - x0).natAbs + (y1 - y0).natAbs + 1) (x1 - x0).natAbs
        y0 x0 (|y1 - y0| + -|x1 - x0|)
        (by omega) hy0 hx0
        (by rw [habsy]) (by rw [habsx]; simp)
        (by rw [habsx, habsy]; ring)
        (by rw [habsx, habsy]; nlinarith [abs_nonneg (x1 - x0), abs_nonneg (y1 - y0)])
        (by rw [habsx, habsy]; nlinarith [abs_nonneg (x1 - x0), abs_nonneg (y1 - y0)])
    refine ⟨l.map Prod.swap, ?_, ?_, ?_, ?_⟩
    · simp only [bresenhamLine]
      rw [bresenhamGo_swap]
      simp only [neg_neg]
      rw [show -(|x1 - x0| + -|y1 - y0|) = |y1 - y0| + -|x1 - x0| by ring, hl]
      rfl
    · rw [List.length_map, hlen]; congr 1; omega
    · rw [List.head?_map, hhead]; rfl
    · rw [lastOption_map, hlast]; rfl

end BresenhamWu

namespace BresenhamWu

/-- Every sample the Bresenham loop emits is the `normalize` image of an
integer pixel coordinate pair. -/
lemma bresenhamGo_shape (x1 y1 dx dy sx sy w h : ℤ) :
    ∀ (fuel : ℕ) (x0 y0 err : ℤ) (l : List (ℚ × ℚ)),
      bresenhamGo x1 y1 dx dy sx sy w h fuel x0 y0 err = some l →
      ∀ p ∈ l, ∃ px py : ℤ, p = (normalize (px : ℚ) w, normalize (py : ℚ) h) := by
  intro fuel
  induction fuel with
  | zero => intro x0 y0 err l hl; cases hl
  | succ f ih =>
    intro x0 y0 err l hl p hp
    rw [bresenhamGo_succ] at hl
    by_cases hend : x0 = x1 ∧ y0 = y1
    · rw [if_pos hend] at hl
      obtain rfl : l = [(normalize (x0 : ℚ) w, normalize (y0 : ℚ) h)] :=
        (Option.some_injective _ hl).symm
      obtain rfl : p = (normalize (x0 : ℚ) w, normalize (y0 : ℚ) h) := by simpa using hp
      exact ⟨x0, y0, rfl⟩
    · rw [if_neg hend, Option.map_eq_some'] at hl
      obtain ⟨l', hl', rfl⟩ := hl
      rcases List.mem_cons.mp hp with rfl | hp'
      · exact ⟨x0, y0, rfl⟩
      · exact ih _ _ _ l' hl' p hp'

/-- With a non-positive angular step, the angle loop of `generateLines` never
reaches `360`: the model runs out of any amount of fuel. -/
lemma radialAngles_none (step : ℤ) (hstep : step ≤ 0) :
    ∀ (fuel : ℕ) (angle : ℤ), angle < 360 → radialAngles step fuel angle = none := by
  intro fuel
  induction fuel with
  | zero => intro angle hang; simp [radialAngles, hang]
  | succ f ih =>
    intro angle hang
    simp only [radialAngles, if_pos hang]
    rw [ih (angle + step) (by omega)]
    rfl

/-- C4: for every pair of integer endpoints and positive canvas dimensions,
`bresenhamLine` returns a non-empty sample sequence whose first sample is the
normalized first input endpoint and whose last sample is the normalized second
input endpoint. -/
theorem bresenham_first_last (x0 y0 x1 y1 w h : ℤ) (_hw : 0 < w) (_hh : 0 < h) :
    ∃ l, bresenhamLine x0 y0 x1 y1 w h = some l ∧ l ≠ [] ∧
      l.head? = some (normalize (x0 : ℚ) w, normalize (y0 : ℚ) h) ∧
      l.getLast? = some (normalize (x1 : ℚ) w, normalize (y1 : ℚ) h) := by
  obtain ⟨l, hl, hlen, hhead, hlast⟩ := bresenhamLine_spec x0 y0 x1 y1 w h
  refine ⟨l, hl, ?_, hhead, hlast⟩
  intro hnil
  rw [hnil] at hhead
  cases hhead

/-- Witness for C4 at a concrete input. -/
theorem bresenham_first_last_witness :
    (0 : ℤ) < 100 ∧
      ∃ l, bresenhamLine 0 0 3 1 100 100 = some l ∧ l ≠ [] ∧
        l.head? = some (normalize ((0 : ℤ) : ℚ) 100, normalize ((0 : ℤ) : ℚ) 100) ∧
        l.getLast? = some (normalize ((3 : ℤ) : ℚ) 100, normalize ((1 : ℤ) : ℚ) 100) :=
  ⟨by decide, bresenham_first_last 0 0 3 1 100 100 (by decide) (by decide)⟩

/-- C5: `bresenhamLine` emits exactly `max |x1-x0| |y1-y0| + 1` samples, and a
degenerate segment yields exactly the one normalized sample of its pixel. -/
theorem bresenham_sample_count (x0 y0 x1 y1 w h : ℤ) :
    ∃ l, bresenhamLine x0 y0 x1 y1 w h = some l ∧
      l.length = max (x1 - x0).natAbs (y1 - y0).natAbs + 1 ∧
      (x0 = x1 → y0 = y1 →
        l = [(normalize (x0 : ℚ) w, normalize (y0 : ℚ) h)]) := by
  obtain ⟨l, hl, hlen, hhead, hlast⟩ := bresenhamLine_spec x0 y0 x1 y1 w h
  refine ⟨l, hl, hlen, ?_⟩
  rintro rfl rfl
  simp only [sub_self, Int.natAbs_zero, Nat.max_self, Nat.zero_add] at hlen
  cases l with
  | nil => cases hlen
  | cons a t =>
    cases t with
    | nil =>
      simp only [List.head?_cons, Option.some.injEq] at hhead
      rw [hhead]
    | cons b u => simp at hlen

/-- Witness for C5 at a concrete degenerate input. -/
theorem bresenham_sample_count_witness :
    ∃ l, bresenhamLine 2 3 2 3 50 60 = some l ∧
      l = [(normalize ((2 : ℤ) : ℚ) 50, normalize ((3 : ℤ) : ℚ) 60)] := by
  obtain ⟨l, hl, -, hs⟩ := bresenham_sample_count 2 3 2 3 50 60
  exact ⟨l, hl, hs rfl rfl⟩

/-- C6: the stepping loop of `bresenhamLine` terminates within its fuel for
every pair of integer endpoints, and the sample it is emitting when it stops
is exactly the normalized end pixel (inclusive termination). -/
theorem bresenham_terminates_at_end_pixel (x0 y0 x1 y1 w h : ℤ) :
    ∃ l, bresenhamLine x0 y0 x1 y1 w h = some l ∧ l ≠ [] ∧
      l.getLast? = some (normalize (x1 : ℚ) w, normalize (y1 : ℚ) h) := by
  obtain ⟨l, hl, hlen, hhead, hlast⟩ := bresenhamLine_spec x0 y0 x1 y1 w h
  refine ⟨l, hl, ?_, hlast⟩
  intro hnil
  rw [hnil] at hhead
  cases hhead

end BresenhamWu

namespace BresenhamWu

lemma fpart_nonneg (x : ℚ) : 0 ≤ fpart x := by
  have := Int.floor_le x
  rw [fpart]; linarith

lemma fpart_lt_one (x : ℚ) : fpart x < 1 := by
  have := Int.lt_floor_add_one x
  rw [fpart]; linarith

lemma rfpart_nonneg (x : ℚ) : 0 ≤ rfpart x := by
  have := fpart_lt_one x
  rw [rfpart]; linarith

lemma rfpart_le_one (x : ℚ) : rfpart x ≤ 1 := by
  have := fpart_nonneg x
  rw [rfpart]; linarith

/-- Coverage of an endpoint split pair sums to the endpoint's `xgap`. -/
lemma pairSums_endpointPair (w h : ℤ) (r g b : ℚ) (steep : Bool) (xpxl ypxl : ℤ)
    (yendv xgap : ℚ) (rest : List WuVertex) :
    pairSums (wuEndpointPair w h r g b steep xpxl ypxl yendv xgap ++ rest) =
      xgap :: pairSums rest := by
  have harith : (1 - fpart yendv) * xgap + fpart yendv * xgap = xgap := by ring
  cases steep <;>
    simp [wuEndpointPair, pairSums, rfpart, harith]

/-- Coverage of every interior split pair sums to exactly `1`. -/
lemma pairSums_wuLoop (w h : ℤ) (r g b gradient : ℚ) (steep : Bool) :
    ∀ (n : ℕ) (x : ℤ) (intery : ℚ),
      pairSums (wuLoop w h r g b gradient steep n x intery) = List.replicate n 1 := by
  intro n
  induction n with
  | zero => intro x intery; rfl
  | succ m ih =>
    intro x intery
    have harith : 1 - fpart intery + fpart intery = 1 := by ring
    cases steep <;>
      simp [wuLoop, pairSums, rfpart, ih, List.replicate_succ, harith]

/-- Structure of the coverage-pair sums of `xiaolinWuLine`: the first endpoint
pair sums to its gap `1 - fpart X0`, the second to its gap
`1 - (X1 - ceil X1)`, and every interior pair sums to exactly `1`. -/
lemma pairSums_xiaolinWuLine (x0 y0 x1 y1 : ℚ) (w h : ℤ) (r g b : ℚ) :
    pairSums (xiaolinWuLine x0 y0 x1 y1 w h r g b) =
      (1 - fpart (wuX0 x0 y0 x1 y1)) ::
        (1 - (wuX1 x0 y0 x1 y1 - (⌈wuX1 x0 y0 x1 y1⌉ : ℚ))) ::
        List.replicate (⌈wuX1 x0 y0 x1 y1⌉ - ⌊wuX0 x0 y0 x1 y1⌋ - 1).toNat 1 := by
  rw [xiaolinWuLine, wuAfterSwap.eq_def]
  simp only []
  rw [pairSums_endpointPair, pairSums_endpointPair, pairSums_wuLoop]
  rw [fpart]

/-- Length of the main sweep: two samples per interior column. -/
lemma wuLoop_length (w h : ℤ) (r g b gradient : ℚ) (steep : Bool) :
    ∀ (n : ℕ) (x : ℤ) (intery : ℚ),
      (wuLoop w h r g b gradient steep n x intery).length = 2 * n := by
  intro n
  induction n with
  | zero => intro x intery; rfl
  | succ m ih =>
    intro x intery
    cases steep <;> (simp [wuLoop, ih]; omega)

/-- Total sample count of `xiaolinWuLine`: four endpoint samples plus two per
interior column. -/
lemma xiaolinWuLine_length (x0 y0 x1 y1 : ℚ) (w h : ℤ) (r g b : ℚ) :
    (xiaolinWuLine x0 y0 x1 y1 w h r g b).length =
      4 + 2 * (⌈wuX1 x0 y0 x1 y1⌉ - ⌊wuX0 x0 y0 x1 y1⌋ - 1).toNat := by
  rw [xiaolinWuLine, wuAfterSwap.eq_def]
  simp only []
  cases wuSteep x0 y0 x1 y1 <;>
    (simp [wuEndpointPair, wuLoop_length]; omega)

end BresenhamWu

namespace BresenhamWu

lemma wuSteep_half : wuSteep (1/2) 0 2 0 = false := by
  have h1 : |(0 : ℚ) - 0| = 0 := by simp
  have h2 : |(2 : ℚ) - 1/2| = 3/2 := by
    rw [show (2 : ℚ) - 1/2 = 3/2 by norm_num, abs_of_nonneg (by norm_num)]
  rw [wuSteep, h1, h2]
  exact decide_eq_false (by norm_num)

lemma wuWork_half : wuWork (1/2) 0 2 0 = (1/2, 0, 2, 0) := by
  rw [wuWork, wuSteep_half]
  norm_num

lemma wuSteep_shallow : wuSteep 0 0 (1/2) (2/5) = false := by
  have h1 : |(2 : ℚ)/5 - 0| = 2/5 := by
    rw [sub_zero, abs_of_nonneg (by norm_num)]
  have h2 : |(1 : ℚ)/2 - 0| = 1/2 := by
    rw [sub_zero, abs_of_nonneg (by norm_num)]
  rw [wuSteep, h1, h2]
  exact decide_eq_false (by norm_num)

lemma wuWork_shallow : wuWork 0 0 (1/2) (2/5) = (0, 0, 1/2, 2/5) := by
  rw [wuWork, wuSteep_shallow]
  norm_num

/-- C1 (amended): every sample pair emitted by `xiaolinWuLine` is a coverage
split pair whose two interior-column coverages sum to exactly `1`, while the
two endpoint pairs sum to that endpoint's gap — `1 - fpart X0` for the first
endpoint and `1 - (X1 - ceil X1)` for the second — which equals `1` only when
the endpoint's primary coordinate is an integer. -/
theorem wu_pair_sums (x0 y0 x1 y1 : ℚ) (w h : ℤ) (r g b : ℚ) :
    pairSums (xiaolinWuLine x0 y0 x1 y1 w h r g b) =
      (1 - fpart (wuX0 x0 y0 x1 y1)) ::
        (1 - (wuX1 x0 y0 x1 y1 - (⌈wuX1 x0 y0 x1 y1⌉ : ℚ))) ::
        List.replicate (⌈wuX1 x0 y0 x1 y1⌉ - ⌊wuX0 x0 y0 x1 y1⌋ - 1).toNat 1 :=
  pairSums_xiaolinWuLine x0 y0 x1 y1 w h r g b

/-- Counterexample to C1 as stated: for the segment from `(0.5, 0)` to
`(2, 0)` the first endpoint's coverage-split pair sums to `1/2`, not `1`. -/
theorem wu_pair_sums_cex :
    pairSums (xiaolinWuLine (1/2) 0 2 0 100 100 1 0 1) = [1/2, 1, 1] ∧
      ((1 : ℚ)/2) ≠ 1 := by
  constructor
  · rw [pairSums_xiaolinWuLine]
    rw [wuX0, wuX1, wuWork_half]
    norm_num [fpart]
  · norm_num

/-- First four samples of `xiaolinWuLine` are the two endpoint coverage
splits, with the gaps the code actually computes. -/
lemma wu_endpoint_alphas (x0 y0 x1 y1 : ℚ) (w h : ℤ) (r g b : ℚ) :
    ((xiaolinWuLine x0 y0 x1 y1 w h r g b).getD 0 ⟨0,0,0,0,0,0⟩).alpha =
        rfpart (wuYend1 (wuX0 x0 y0 x1 y1) (wuY0 x0 y0 x1 y1) (wuX1 x0 y0 x1 y1)
            (wuY1 x0 y0 x1 y1)) * (1 - fpart (wuX0 x0 y0 x1 y1)) ∧
      ((xiaolinWuLine x0 y0 x1 y1 w h r g b).getD 1 ⟨0,0,0,0,0,0⟩).alpha =
        fpart (wuYend1 (wuX0 x0 y0 x1 y1) (wuY0 x0 y0 x1 y1) (wuX1 x0 y0 x1 y1)
            (wuY1 x0 y0 x1 y1)) * (1 - fpart (wuX0 x0 y0 x1 y1)) ∧
      ((xiaolinWuLine x0 y0 x1 y1 w h r g b).getD 2 ⟨0,0,0,0,0,0⟩).alpha =
        rfpart (wuYend2 (wuX0 x0 y0 x1 y1) (wuY0 x0 y0 x1 y1) (wuX1 x0 y0 x1 y1)
            (wuY1 x0 y0 x1 y1)) * (1 - (wuX1 x0 y0 x1 y1 - (⌈wuX1 x0 y0 x1 y1⌉ : ℚ))) ∧
      ((xiaolinWuLine x0 y0 x1 y1 w h r g b).getD 3 ⟨0,0,0,0,0,0⟩).alpha =
        fpart (wuYend2 (wuX0 x0 y0 x1 y1) (wuY0 x0 y0 x1 y1) (wuX1 x0 y0 x1 y1)
            (wuY1 x0 y0 x1 y1)) * (1 - (wuX1 x0 y0 x1 y1 - (⌈wuX1 x0 y0 x1 y1⌉ : ℚ))) := by
  rw [xiaolinWuLine, wuAfterSwap.eq_def]
  simp only []
  cases wuSteep x0 y0 x1 y1 <;>
    simp [wuEndpointPair, List.getD, fpart]

end BresenhamWu

namespace BresenhamWu

/-- C3 (amended): each endpoint's split sends `rfpart(yend) * gap` to the
lower pixel and `fpart(yend) * gap` to the upper pixel, where the first
endpoint's gap is `1 - fpart X0` as the claim states, but the second
endpoint's gap is `1 - (X1 - ceil X1)`, not `1 - fpart X1`. -/
theorem wu_endpoint_gap_formulas (x0 y0 x1 y1 : ℚ) (w h : ℤ) (r g b : ℚ) :
    ((xiaolinWuLine x0 y0 x1 y1 w h r g b).getD 0 ⟨0,0,0,0,0,0⟩).alpha =
        rfpart (wuYend1 (wuX0 x0 y0 x1 y1) (wuY0 x0 y0 x1 y1) (wuX1 x0 y0 x1 y1)
            (wuY1 x0 y0 x1 y1)) * (1 - fpart (wuX0 x0 y0 x1 y1)) ∧
      ((xiaolinWuLine x0 y0 x1 y1 w h r g b).getD 1 ⟨0,0,0,0,0,0⟩).alpha =
        fpart (wuYend1 (wuX0 x0 y0 x1 y1) (wuY0 x0 y0 x1 y1) (wuX1 x0 y0 x1 y1)
            (wuY1 x0 y0 x1 y1)) * (1 - fpart (wuX0 x0 y0 x1 y1)) ∧
      ((xiaolinWuLine x0 y0 x1 y1 w h r g b).getD 2 ⟨0,0,0,0,0,0⟩).alpha =
        rfpart (wuYend2 (wuX0 x0 y0 x1 y1) (wuY0 x0 y0 x1 y1) (wuX1 x0 y0 x1 y1)
            (wuY1 x0 y0 x1 y1)) * (1 - (wuX1 x0 y0 x1 y1 - (⌈wuX1 x0 y0 x1 y1⌉ : ℚ))) ∧
      ((xiaolinWuLine x0 y0 x1 y1 w h r g b).getD 3 ⟨0,0,0,0,0,0⟩).alpha =
        fpart (wuYend2 (wuX0 x0 y0 x1 y1) (wuY0 x0 y0 x1 y1) (wuX1 x0 y0 x1 y1)
            (wuY1 x0 y0 x1 y1)) * (1 - (wuX1 x0 y0 x1 y1 - (⌈wuX1 x0 y0 x1 y1⌉ : ℚ))) :=
  wu_endpoint_alphas x0 y0 x1 y1 w h r g b

/-- Counterexample to C3 as stated: for the segment from `(0, 0)` to
`(0.5, 0.4)` the code's third sample has coverage `3/10`, while the claimed
gap formula `1 - fpart X1` would give `1/10`. -/
theorem wu_gap_formula_cex :
    ((xiaolinWuLine 0 0 (1/2) (2/5) 100 100 1 0 1).getD 2 ⟨0,0,0,0,0,0⟩).alpha = 3/10 ∧
      (3/10 : ℚ) ≠
        rfpart (wuYend2 (wuX0 0 0 (1/2) (2/5)) (wuY0 0 0 (1/2) (2/5))
            (wuX1 0 0 (1/2) (2/5)) (wuY1 0 0 (1/2) (2/5))) *
          (1 - fpart (wuX1 0 0 (1/2) (2/5))) := by
  have hX0 : wuX0 0 0 (1/2) (2/5) = 0 := by rw [wuX0, wuWork_shallow]
  have hY0 : wuY0 0 0 (1/2) (2/5) = 0 := by rw [wuY0, wuWork_shallow]
  have hX1 : wuX1 0 0 (1/2) (2/5) = 1/2 := by rw [wuX1, wuWork_shallow]
  have hY1 : wuY1 0 0 (1/2) (2/5) = 2/5 := by rw [wuY1, wuWork_shallow]
  have hceil : (⌈(1 : ℚ)/2⌉ : ℤ) = 1 := by
    rw [Int.ceil_eq_iff]
    norm_num
  have hyend : wuYend2 (wuX0 0 0 (1/2) (2/5)) (wuY0 0 0 (1/2) (2/5))
      (wuX1 0 0 (1/2) (2/5)) (wuY1 0 0 (1/2) (2/5)) = 4/5 := by
    rw [hX0, hY0, hX1, hY1, wuYend2, wuGradient]
    rw [hceil]
    norm_num
  obtain ⟨-, -, h2, -⟩ := wu_endpoint_alphas 0 0 (1/2) (2/5) 100 100 1 0 1
  constructor
  · rw [h2, hyend, hX1, hceil]
    norm_num [rfpart, fpart]
  · rw [hyend, hX1]
    norm_num [rfpart, fpart]

/-- Alphas of an endpoint split pair. -/
lemma wuEndpointPair_alpha_mem (w h : ℤ) (r g b : ℚ) (steep : Bool) (xpxl ypxl : ℤ)
    (yendv xgap : ℚ) :
    ∀ v ∈ wuEndpointPair w h r g b steep xpxl ypxl yendv xgap,
      v.alpha = rfpart yendv * xgap ∨ v.alpha = fpart yendv * xgap := by
  intro v hv
  cases steep <;>
    · simp only [wuEndpointPair] at hv
      simp at hv
      rcases hv with rfl | rfl <;> simp

/-- Interior-column coverages always lie in `[0, 1]`. -/
lemma wuLoop_alpha_bounds (w h : ℤ) (r g b gradient : ℚ) (steep : Bool) :
    ∀ (n : ℕ) (x : ℤ) (intery : ℚ),
      ∀ v ∈ wuLoop w h r g b gradient steep n x intery,
        0 ≤ v.alpha ∧ v.alpha ≤ 1 := by
  intro n
  induction n with
  | zero => intro x i v hv; simp [wuLoop] at hv
  | succ m ih =>
    intro x i v hv
    rw [wuLoop] at hv
    rcases List.mem_append.mp hv with h1 | h2
    · have halpha : v.alpha = rfpart i ∨ v.alpha = fpart i := by
        cases steep <;>
          · simp at h1
            rcases h1 with rfl | rfl <;> simp
      rcases halpha with h | h <;> rw [h]
      · exact ⟨rfpart_nonneg i, rfpart_le_one i⟩
      · exact ⟨fpart_nonneg i, (fpart_lt_one i).le⟩
    · exact ih _ _ v h2

/-- C2 (amended): every coverage emitted by `xiaolinWuLine` is non-negative
and strictly below `2`; the claimed upper bound `1` fails only for the second
endpoint's split pair, since its gap `1 - (X1 - ceil X1)` lies in `[1, 2)`. -/
theorem wu_coverage_in_range (x0 y0 x1 y1 : ℚ) (w h : ℤ) (r g b : ℚ) :
    ∀ v ∈ xiaolinWuLine x0 y0 x1 y1 w h r g b, 0 ≤ v.alpha ∧ v.alpha < 2 := by
  intro v hv
  rw [xiaolinWuLine, wuAfterSwap.eq_def] at hv
  simp only [] at hv
  rcases List.mem_append.mp hv with h1 | h23
  · -- first endpoint pair: gap in (0, 1]
    have hf0 := fpart_nonneg (wuX0 x0 y0 x1 y1)
    have hf1 := fpart_lt_one (wuX0 x0 y0 x1 y1)
    rw [fpart] at hf0 hf1
    rcases wuEndpointPair_alpha_mem _ _ _ _ _ _ _ _ _ _ v h1 with h | h <;> rw [h]
    · have ht0 := rfpart_nonneg (wuYend1 (wuX0 x0 y0 x1 y1) (wuY0 x0 y0 x1 y1)
        (wuX1 x0 y0 x1 y1) (wuY1 x0 y0 x1 y1))
      have ht1 := rfpart_le_one (wuYend1 (wuX0 x0 y0 x1 y1) (wuY0 x0 y0 x1 y1)
        (wuX1 x0 y0 x1 y1) (wuY1 x0 y0 x1 y1))
      constructor
      · exact mul_nonneg ht0 (by linarith)
      · nlinarith
    · have ht0 := fpart_nonneg (wuYend1 (wuX0 x0 y0 x1 y1) (wuY0 x0 y0 x1 y1)
        (wuX1 x0 y0 x1 y1) (wuY1 x0 y0 x1 y1))
      have ht1 := (fpart_lt_one (wuYend1 (wuX0 x0 y0 x1 y1) (wuY0 x0 y0 x1 y1)
        (wuX1 x0 y0 x1 y1) (wuY1 x0 y0 x1 y1))).le
      constructor
      · exact mul_nonneg ht0 (by linarith)
      · nlinarith
  · rcases List.mem_append.mp h23 with h2 | h3
    · -- second endpoint pair: gap in [1, 2)
      have hc1 := Int.le_ceil (wuX1 x0 y0 x1 y1)
      have hc2 := Int.ceil_lt_add_one (wuX1 x0 y0 x1 y1)
      rcases wuEndpointPair_alpha_mem _ _ _ _ _ _ _ _ _ _ v h2 with h | h <;> rw [h]
      · have ht0 := rfpart_nonneg (wuYend2 (wuX0 x0 y0 x1 y1) (wuY0 x0 y0 x1 y1)
          (wuX1 x0 y0 x1 y1) (wuY1 x0 y0 x1 y1))
        have ht1 := rfpart_le_one (wuYend2 (wuX0 x0 y0 x1 y1) (wuY0 x0 y0 x1 y1)
          (wuX1 x0 y0 x1 y1) (wuY1 x0 y0 x1 y1))
        constructor
        · exact mul_nonneg ht0 (by linarith)
        · nlinarith
      · have ht0 := fpart_nonneg (wuYend2 (wuX0 x0 y0 x1 y1) (wuY0 x0 y0 x1 y1)
          (wuX1 x0 y0 x1 y1) (wuY1 x0 y0 x1 y1))
        have ht1 := (fpart_lt_one (wuYend2 (wuX0 x0 y0 x1 y1) (wuY0 x0 y0 x1 y1)
          (wuX1 x0 y0 x1 y1) (wuY1 x0 y0 x1 y1))).le
        constructor
        · exact mul_nonneg ht0 (by linarith)
        · nlinarith
    · -- interior columns
      obtain ⟨h0, h1⟩ := wuLoop_alpha_bounds _ _ _ _ _ _ _ _ _ _ v h3
      exact ⟨h0, lt_of_le_of_lt h1 one_lt_two⟩

/-- Counterexample to C2 as stated: for the segment from `(0, 0)` to
`(0.5, 0.4)` the fourth emitted sample carries coverage `6/5`, outside
`[0, 1]`. -/
theorem wu_coverage_cex :
    ((xiaolinWuLine 0 0 (1/2) (2/5) 100 100 1 0 1).getD 3 ⟨0,0,0,0,0,0⟩).alpha = 6/5 ∧
      ¬((6 : ℚ)/5 ≤ 1) := by
  have hX0 : wuX0 0 0 (1/2) (2/5) = 0 := by rw [wuX0, wuWork_shallow]
  have hY0 : wuY0 0 0 (1/2) (2/5) = 0 := by rw [wuY0, wuWork_shallow]
  have hX1 : wuX1 0 0 (1/2) (2/5) = 1/2 := by rw [wuX1, wuWork_shallow]
  have hY1 : wuY1 0 0 (1/2) (2/5) = 2/5 := by rw [wuY1, wuWork_shallow]
  have hceil : (⌈(1 : ℚ)/2⌉ : ℤ) = 1 := by
    rw [Int.ceil_eq_iff]
    norm_num
  have hyend : wuYend2 (wuX0 0 0 (1/2) (2/5)) (wuY0 0 0 (1/2) (2/5))
      (wuX1 0 0 (1/2) (2/5)) (wuY1 0 0 (1/2) (2/5)) = 4/5 := by
    rw [hX0, hY0, hX1, hY1, wuYend2, wuGradient]
    rw [hceil]
    norm_num
  obtain ⟨-, -, -, h3⟩ := wu_endpoint_alphas 0 0 (1/2) (2/5) 100 100 1 0 1
  constructor
  · rw [h3, hyend, hX1, hceil]
    norm_num [fpart]
  · norm_num

/-- Head of a non-empty list through `getD`. -/
lemma getD_zero_mem (l : List WuVertex) (d : WuVertex) (hne : l ≠ []) :
    l.getD 0 d ∈ l := by
  cases l with
  | nil => exact absurd rfl hne
  | cons a t => simp [List.getD]

/-- Witness for C2's amended bound at a concrete sample of a concrete call. -/
theorem wu_coverage_in_range_witness :
    0 ≤ ((xiaolinWuLine 0 0 3 0 100 100 1 0 1).getD 0 ⟨0,0,0,0,0,0⟩).alpha ∧
      ((xiaolinWuLine 0 0 3 0 100 100 1 0 1).getD 0 ⟨0,0,0,0,0,0⟩).alpha < 2 := by
  have hne : xiaolinWuLine 0 0 3 0 100 100 1 0 1 ≠ [] := by
    apply List.ne_nil_of_length_pos
    rw [xiaolinWuLine_length]
    omega
  exact wu_coverage_in_range 0 0 3 0 100 100 1 0 1 _
    (getD_zero_mem _ _ hne)

end BresenhamWu

namespace BresenhamWu

lemma wuSteep_comm (x0 y0 x1 y1 : ℚ) :
    wuSteep x1 y1 x0 y0 = wuSteep x0 y0 x1 y1 := by
  rw [wuSteep, wuSteep, abs_sub_comm y0 y1, abs_sub_comm x0 x1]

/-- Reversing the two endpoints leads to the same working endpoints after the
orientation-normalization swaps. -/
lemma wuWork_comm (x0 y0 x1 y1 : ℚ) :
    wuWork x1 y1 x0 y0 = wuWork x0 y0 x1 y1 := by
  rw [wuWork, wuWork, wuSteep_comm]
  cases hsb : wuSteep x0 y0 x1 y1 with
  | true =>
    have hyy : |x1 - x0| < |y1 - y0| := by
      rw [wuSteep] at hsb
      exact of_decide_eq_true hsb
    simp only [if_true]
    rcases lt_trichotomy y0 y1 with h | h | h
    · rw [if_pos h, if_neg (lt_asymm h)]
    · rw [h, sub_self, abs_zero] at hyy
      exact absurd hyy (not_lt.mpr (abs_nonneg _))
    · rw [if_neg (lt_asymm h), if_pos h]
  | false =>
    have hyy : ¬(|x1 - x0| < |y1 - y0|) := by
      rw [wuSteep] at hsb
      exact of_decide_eq_false hsb
    simp only [Bool.false_eq_true, if_false]
    rcases lt_trichotomy x0 x1 with h | h | h
    · rw [if_pos h, if_neg (lt_asymm h)]
    · have hy : y0 = y1 := by
        rw [h, sub_self, abs_zero] at hyy
        push_neg at hyy
        have h0 : |y1 - y0| = 0 := le_antisymm hyy (abs_nonneg _)
        have := abs_eq_zero.mp h0
        linarith
      rw [h, hy]
    · rw [if_neg (lt_asymm h), if_pos h]

/-- C8: rasterizing the segment `(A, B)` and the reversed segment `(B, A)`
with `xiaolinWuLine` produces the identical sample sequence — in particular
the same set of position/coverage pairs. -/
theorem wu_reversal_symmetric (x0 y0 x1 y1 : ℚ) (w h : ℤ) (r g b : ℚ) :
    xiaolinWuLine x0 y0 x1 y1 w h r g b = xiaolinWuLine x1 y1 x0 y0 w h r g b := by
  simp only [xiaolinWuLine, wuX0, wuY0, wuX1, wuY1]
  rw [wuWork_comm, wuSteep_comm]

/-- Positions of an endpoint split pair are `normalize` images of integer
pixel coordinates. -/
lemma wuEndpointPair_positions (w h : ℤ) (r g b : ℚ) (steep : Bool) (xpxl ypxl : ℤ)
    (yendv xgap : ℚ) :
    ∀ v ∈ wuEndpointPair w h r g b steep xpxl ypxl yendv xgap,
      ∃ px py : ℤ, v.x = normalize (px : ℚ) w ∧ v.y = normalize (py : ℚ) h := by
  intro v hv
  cases steep
  · simp only [wuEndpointPair] at hv
    simp at hv
    rcases hv with rfl | rfl
    · exact ⟨xpxl, ypxl, rfl, rfl⟩
    · exact ⟨xpxl, ypxl + 1, rfl, by norm_cast⟩
  · simp only [wuEndpointPair] at hv
    simp at hv
    rcases hv with rfl | rfl
    · exact ⟨ypxl, xpxl, rfl, rfl⟩
    · exact ⟨ypxl + 1, xpxl, by norm_cast, rfl⟩

/-- Positions of the main sweep are `normalize` images of integer pixel
coordinates. -/
lemma wuLoop_positions (w h : ℤ) (r g b gradient : ℚ) (steep : Bool) :
    ∀ (n : ℕ) (x : ℤ) (intery : ℚ),
      ∀ v ∈ wuLoop w h r g b gradient steep n x intery,
        ∃ px py : ℤ, v.x = normalize (px : ℚ) w ∧ v.y = normalize (py : ℚ) h := by
  intro n
  induction n with
  | zero => intro x i v hv; simp [wuLoop] at hv
  | succ m ih =>
    intro x i v hv
    rw [wuLoop] at hv
    rcases List.mem_append.mp hv with h1 | h2
    · cases steep
      · simp at h1
        rcases h1 with rfl | rfl
        · exact ⟨x, ⌊i⌋, rfl, rfl⟩
        · exact ⟨x, ⌊i⌋ + 1, rfl, by norm_cast⟩
      · simp at h1
        rcases h1 with rfl | rfl
        · exact ⟨⌊i⌋, x, rfl, rfl⟩
        · exact ⟨⌊i⌋ + 1, x, by norm_cast, rfl⟩
    · exact ih _ _ v h2

/-- C9: the coordinate normalizer realizes `(2*(c+0.5))/d - 1`, maps pixel `0`
of a 10-wide canvas to `-0.9` and pixel `9` to `0.9`, and both rasterizers
emit every sample position as this mapping applied to an integer pixel
coordinate. -/
theorem normalize_spec :
    (∀ (c : ℚ) (d : ℤ), normalize c d = 2 * (c + 1/2) / d - 1) ∧
      normalize 0 10 = -(9/10) ∧
      normalize 9 10 = 9/10 ∧
      (∀ (x0 y0 x1 y1 w h : ℤ) (l : List (ℚ × ℚ)),
        bresenhamLine x0 y0 x1 y1 w h = some l →
        ∀ p ∈ l, ∃ px py : ℤ, p = (normalize (px : ℚ) w, normalize (py : ℚ) h)) ∧
      (∀ (x0 y0 x1 y1 : ℚ) (w h : ℤ) (r g b : ℚ),
        ∀ v ∈ xiaolinWuLine x0 y0 x1 y1 w h r g b,
          ∃ px py : ℤ, v.x = normalize (px : ℚ) w ∧ v.y = normalize (py : ℚ) h) := by
  refine ⟨fun c d => rfl, by norm_num [normalize], by norm_num [normalize], ?_, ?_⟩
  · intro x0 y0 x1 y1 w h l hl p hp
    simp only [bresenhamLine] at hl
    exact bresenhamGo_shape _ _ _ _ _ _ _ _ _ _ _ _ _ hl p hp
  · intro x0 y0 x1 y1 w h r g b v hv
    rw [xiaolinWuLine, wuAfterSwap.eq_def] at hv
    simp only [] at hv
    rcases List.mem_append.mp hv with h1 | h23
    · exact wuEndpointPair_positions _ _ _ _ _ _ _ _ _ _ v h1
    · rcases List.mem_append.mp h23 with h2 | h3
      · exact wuEndpointPair_positions _ _ _ _ _ _ _ _ _ _ v h2
      · exact wuLoop_positions _ _ _ _ _ _ _ _ _ _ v h3

/-- Witness for C9 at concrete inputs. -/
theorem normalize_spec_witness :
    normalize 0 10 = -(9/10) ∧
      (∃ px py : ℤ,
        ((xiaolinWuLine 0 0 3 0 100 100 1 0 1).getD 0 ⟨0,0,0,0,0,0⟩).x =
            normalize (px : ℚ) 100 ∧
          ((xiaolinWuLine 0 0 3 0 100 100 1 0 1).getD 0 ⟨0,0,0,0,0,0⟩).y =
            normalize (py : ℚ) 100) := by
  refine ⟨normalize_spec.2.1, ?_⟩
  have hne : xiaolinWuLine 0 0 3 0 100 100 1 0 1 ≠ [] := by
    apply List.ne_nil_of_length_pos
    rw [xiaolinWuLine_length]
    omega
  exact normalize_spec.2.2.2.2 0 0 3 0 100 100 1 0 1 _ (getD_zero_mem _ _ hne)

/-- C7 (amended): none of the core operations validates its preconditions.
`bresenhamLine` emits at least one sample for every input, including
non-positive canvas dimensions (the NDC division is performed regardless),
and with a non-positive angular step the loop of `generateLines` never
terminates, so no fuel makes `radialAngles` finish. -/
theorem no_fail_fast :
    (∀ x0 y0 x1 y1 w h : ℤ, ∃ l, bresenhamLine x0 y0 x1 y1 w h = some l ∧ l ≠ []) ∧
      (∀ step : ℤ, step ≤ 0 → ∀ fuel : ℕ, radialAngles step fuel 0 = none) := by
  constructor
  · intro x0 y0 x1 y1 w h
    obtain ⟨l, hl, -, hhead, -⟩ := bresenhamLine_spec x0 y0 x1 y1 w h
    refine ⟨l, hl, ?_⟩
    intro hnil
    rw [hnil] at hhead
    cases hhead
  · intro step hstep fuel
    exact radialAngles_none step hstep fuel 0 (by norm_num)

/-- Counterexample to C7 as stated: called with width and height `0`,
`bresenhamLine` does not fail fast with no output — it emits the sample
`(-1, -1)` obtained from the division by the zero dimension. -/
theorem no_fail_fast_cex :
    bresenhamLine 0 0 0 0 0 0 = some [(-1, -1)] ∧
      ([((-1 : ℚ), (-1 : ℚ))] : List (ℚ × ℚ)) ≠ [] := by
  constructor
  · have h1 : bresenhamLine 0 0 0 0 0 0 =
        some [(normalize ((0 : ℤ) : ℚ) 0, normalize ((0 : ℤ) : ℚ) 0)] := rfl
    rw [h1]
    norm_num [normalize]
  · simp

/-- Witness for C7's amended statement at concrete inputs. -/
theorem no_fail_fast_witness :
    (∃ l, bresenhamLine 1 2 3 4 0 0 = some l ∧ l ≠ []) ∧
      radialAngles (-5) 42 0 = none :=
  ⟨no_fail_fast.1 1 2 3 4 0 0, no_fail_fast.2 (-5) (by norm_num) 42⟩

end BresenhamWu

namespace BresenhamWu

/-- Characterization of the angle loop for a positive step: it terminates and
produces exactly the multiples of `step` below `360`, in order. -/
lemma radialAngles_spec (step : ℤ) (_hstep : 0 < step) :
    ∀ (fuel : ℕ) (a : ℤ), 360 - a ≤ (fuel : ℤ) * step →
      ∃ m : ℕ, radialAngles step fuel a =
          some ((List.range m).map (fun k : ℕ => a + (k : ℤ) * step)) ∧
        360 ≤ a + (m : ℤ) * step ∧
        ∀ k : ℕ, k < m → a + (k : ℤ) * step < 360 := by
  intro fuel
  induction fuel with
  | zero =>
    intro a ha
    simp only [Nat.cast_zero, zero_mul] at ha
    have h360 : ¬(a < 360) := by omega
    exact ⟨0, by simp [radialAngles, h360], by simp; omega, fun k hk => absurd hk (by omega)⟩
  | succ f ih =>
    intro a ha
    by_cases hlt : a < 360
    · have hstep' : 360 - (a + step) ≤ (f : ℤ) * step := by
        have hc : ((f + 1 : ℕ) : ℤ) * step = (f : ℤ) * step + step := by push_cast; ring
        rw [hc] at ha
        linarith
      obtain ⟨m, hm, h360, hbound⟩ := ih (a + step) hstep'
      refine ⟨m + 1, ?_, ?_, ?_⟩
      · have hval : radialAngles step (f + 1) a =
            some (a :: (List.range m).map (fun k : ℕ => a + step + (k : ℤ) * step)) := by
          rw [radialAngles, if_pos hlt, hm]
          rfl
        rw [hval, List.range_succ_eq_map]
        refine congrArg some ?_
        simp only [List.map_cons, List.map_map, Nat.cast_zero, zero_mul, add_zero]
        refine congrArg (List.cons a) ?_
        refine List.map_congr_left ?_
        intro k _
        simp only [Function.comp_apply]
        push_cast
        ring
      · have hc : ((m + 1 : ℕ) : ℤ) * step = (m : ℤ) * step + step := by push_cast; ring
        rw [hc]
        linarith
      · intro k hk
        cases k with
        | zero => simpa using hlt
        | succ kk =>
          have hb := hbound kk (by omega)
          have hc : ((kk + 1 : ℕ) : ℤ) * step = (kk : ℤ) * step + step := by push_cast; ring
          rw [hc]
          linarith
    · exact ⟨0, by simp [radialAngles, hlt], by simp; omega, fun k hk => absurd hk (by omega)⟩

/-- The radial generator with a positive step terminates and emits one segment
per multiple of the step below `360` degrees. -/
lemma generateLines_spec (x0 y0 radius step : ℤ) (hstep : 0 < step) :
    ∃ m : ℕ, generateLines x0 y0 radius step =
        some ((List.range m).map (fun k : ℕ => lineAt x0 y0 radius ((k : ℤ) * step))) ∧
      360 ≤ (m : ℤ) * step ∧ ∀ k : ℕ, k < m → (k : ℤ) * step < 360 := by
  have hfuel : (360 : ℤ) - 0 ≤ ((360 : ℕ) : ℤ) * step := by
    push_cast
    nlinarith
  obtain ⟨m, hm, h360, hb⟩ := radialAngles_spec step hstep 360 0 hfuel
  refine ⟨m, ?_, by simpa using h360, fun k hk => by simpa using hb k hk⟩
  rw [generateLines, hm]
  refine congrArg some ?_
  rw [List.map_map]
  simp [Function.comp_def]

end BresenhamWu

namespace BresenhamWu

open Real in
/-- Endpoint of the radial segment at angle `0`: exactly `(10, 0)`. -/
lemma lineAt_angle_0 :
    (lineAt 0 0 10 0).x0 = 0 ∧ (lineAt 0 0 10 0).y0 = 0 ∧
      |(lineAt 0 0 10 0).x1 - 10| ≤ 1/10000 ∧ |(lineAt 0 0 10 0).y1 - 0| ≤ 1/10000 := by
  have harg : ((0 : ℤ) : ℝ) * 3.14159 / 180 = 0 := by norm_num
  simp only [lineAt, harg]
  norm_num

open Real in
/-- Endpoint of the radial segment at angle `90`: within `1/10000` of
`(0, 10)`. -/
lemma lineAt_angle_90 :
    (lineAt 0 0 10 90).x0 = 0 ∧ (lineAt 0 0 10 90).y0 = 0 ∧
      |(lineAt 0 0 10 90).x1 - 0| ≤ 1/10000 ∧ |(lineAt 0 0 10 90).y1 - 10| ≤ 1/10000 := by
  have harg : ((90 : ℤ) : ℝ) * 3.14159 / 180 = 1.570795 := by norm_num
  have hd0 : (0 : ℝ) ≤ π/2 - 1.570795 := by linarith [pi_gt_d6]
  have hd1 : π/2 - 1.570795 ≤ 0.0000015 := by linarith [pi_lt_d6]
  have hsle := Real.sin_le hd0
  have hs0 : 0 ≤ Real.sin (π/2 - 1.570795) :=
    Real.sin_nonneg_of_nonneg_of_le_pi hd0 (by linarith [pi_gt_three])
  have hc1 : Real.cos (π/2 - 1.570795) ≤ 1 := Real.cos_le_one _
  have hc0 : 1 - (π/2 - 1.570795) ≤ Real.cos (π/2 - 1.570795) := by
    have h := @Real.one_sub_sq_div_two_le_cos (π/2 - 1.570795)
    nlinarith
  set d : ℝ := π/2 - 1.570795 with hd
  have hcos : Real.cos 1.570795 = Real.sin d := by
    rw [show (1.570795 : ℝ) = π/2 - d from by rw [hd]; ring, Real.cos_pi_div_two_sub]
  have hsin : Real.sin 1.570795 = Real.cos d := by
    rw [show (1.570795 : ℝ) = π/2 - d from by rw [hd]; ring, Real.sin_pi_div_two_sub]
  clear_value d
  simp only [lineAt, harg]
  refine ⟨by norm_num, by norm_num, ?_, ?_⟩
  · rw [hcos, show ((0:ℤ):ℝ) + ((10:ℤ):ℝ) * Real.sin d - 0 = 10 * Real.sin d
      from by push_cast; ring]
    rw [abs_of_nonneg (by linarith)]
    linarith
  · rw [hsin, show ((0:ℤ):ℝ) + ((10:ℤ):ℝ) * Real.cos d - 10 =
      -(10 * (1 - Real.cos d)) from by push_cast; ring]
    rw [abs_neg, abs_of_nonneg (by linarith)]
    linarith

open Real in
/-- Endpoint of the radial segment at angle `180`: within `1/10000` of
`(-10, 0)`. -/
lemma lineAt_angle_180 :
    (lineAt 0 0 10 180).x0 = 0 ∧ (lineAt 0 0 10 180).y0 = 0 ∧
      |(lineAt 0 0 10 180).x1 - (-10)| ≤ 1/10000 ∧
      |(lineAt 0 0 10 180).y1 - 0| ≤ 1/10000 := by
  have harg : ((180 : ℤ) : ℝ) * 3.14159 / 180 = 3.14159 := by norm_num
  have hd0 : (0 : ℝ) ≤ π - 3.14159 := by linarith [pi_gt_d6]
  have hd1 : π - 3.14159 ≤ 0.000003 := by linarith [pi_lt_d6]
  have hsle := Real.sin_le hd0
  have hs0 : 0 ≤ Real.sin (π - 3.14159) :=
    Real.sin_nonneg_of_nonneg_of_le_pi hd0 (by linarith [pi_gt_three])
  have hc1 : Real.cos (π - 3.14159) ≤ 1 := Real.cos_le_one _
  have hc0 : 1 - (π - 3.14159) ≤ Real.cos (π - 3.14159) := by
    have h := @Real.one_sub_sq_div_two_le_cos (π - 3.14159)
    nlinarith
  set d : ℝ := π - 3.14159 with hd
  have hcos : Real.cos 3.14159 = -Real.cos d := by
    rw [show (3.14159 : ℝ) = π - d from by rw [hd]; ring, Real.cos_pi_sub]
  have hsin : Real.sin 3.14159 = Real.sin d := by
    rw [show (3.14159 : ℝ) = π - d from by rw [hd]; ring, Real.sin_pi_sub]
  clear_value d
  simp only [lineAt, harg]
  refine ⟨by norm_num, by norm_num, ?_, ?_⟩
  · rw [hcos, show ((0:ℤ):ℝ) + ((10:ℤ):ℝ) * -Real.cos d - (-10) =
      10 * (1 - Real.cos d) from by push_cast; ring]
    rw [abs_of_nonneg (by linarith)]
    linarith
  · rw [hsin, show ((0:ℤ):ℝ) + ((10:ℤ):ℝ) * Real.sin d - 0 = 10 * Real.sin d
      from by push_cast; ring]
    rw [abs_of_nonneg (by linarith)]
    linarith

open Real in
/-- Endpoint of the radial segment at angle `270`: within `1/10000` of
`(0, -10)`. -/
lemma lineAt_angle_270 :
    (lineAt 0 0 10 270).x0 = 0 ∧ (lineAt 0 0 10 270).y0 = 0 ∧
      |(lineAt 0 0 10 270).x1 - 0| ≤ 1/10000 ∧
      |(lineAt 0 0 10 270).y1 - (-10)| ≤ 1/10000 := by
  have harg : ((270 : ℤ) : ℝ) * 3.14159 / 180 = 4.712385 := by norm_num
  have hd0 : (0 : ℝ) ≤ 3*π/2 - 4.712385 := by linarith [pi_gt_d6]
  have hd1 : 3*π/2 - 4.712385 ≤ 0.0000045 := by linarith [pi_lt_d6]
  have hsle := Real.sin_le hd0
  have hs0 : 0 ≤ Real.sin (3*π/2 - 4.712385) :=
    Real.sin_nonneg_of_nonneg_of_le_pi hd0 (by linarith [pi_gt_three])
  have hc1 : Real.cos (3*π/2 - 4.712385) ≤ 1 := Real.cos_le_one _
  have hc0 : 1 - (3*π/2 - 4.712385) ≤ Real.cos (3*π/2 - 4.712385) := by
    have h := @Real.one_sub_sq_div_two_le_cos (3*π/2 - 4.712385)
    nlinarith
  set d : ℝ := 3*π/2 - 4.712385 with hd
  have hcos : Real.cos 4.712385 = -Real.sin d := by
    rw [show (4.712385 : ℝ) = π + (π/2 - d) from by rw [hd]; ring,
      Real.cos_add, Real.cos_pi, Real.sin_pi, Real.cos_pi_div_two_sub]
    ring
  have hsin : Real.sin 4.712385 = -Real.cos d := by
    rw [show (4.712385 : ℝ) = π + (π/2 - d) from by rw [hd]; ring,
      Real.sin_add, Real.sin_pi, Real.cos_pi, Real.sin_pi_div_two_sub]
    ring
  clear_value d
  simp only [lineAt, harg]
  refine ⟨by norm_num, by norm_num, ?_, ?_⟩
  · rw [hcos, show ((0:ℤ):ℝ) + ((10:ℤ):ℝ) * -Real.sin d - 0 =
      -(10 * Real.sin d) from by push_cast; ring]
    rw [abs_neg, abs_of_nonneg (by linarith)]
    linarith
  · rw [hsin, show ((0:ℤ):ℝ) + ((10:ℤ):ℝ) * -Real.cos d - (-10) =
      10 * (1 - Real.cos d) from by push_cast; ring]
    rw [abs_of_nonneg (by linarith)]
    linarith

end BresenhamWu

namespace BresenhamWu

/-- C10: with a positive angular step the radial generator emits one segment
per multiple of the step in `[0, 360)`, each from the center to the point the
code places at that angle and radius; in particular `generateLines 0 0 10 90`
yields exactly four segments from the center, ending within `1/10000` of
`(10,0)`, `(0,10)`, `(-10,0)` and `(0,-10)`. -/
theorem radial_pattern_spec :
    (∀ x0 y0 radius step : ℤ, 0 < step →
      ∃ m : ℕ, generateLines x0 y0 radius step =
          some ((List.range m).map (fun k : ℕ => lineAt x0 y0 radius ((k : ℤ) * step))) ∧
        360 ≤ (m : ℤ) * step ∧ ∀ k : ℕ, k < m → (k : ℤ) * step < 360) ∧
    generateLines 0 0 10 90 =
        some [lineAt 0 0 10 0, lineAt 0 0 10 90, lineAt 0 0 10 180, lineAt 0 0 10 270] ∧
    ((lineAt 0 0 10 0).x0 = 0 ∧ (lineAt 0 0 10 0).y0 = 0 ∧
      |(lineAt 0 0 10 0).x1 - 10| ≤ 1/10000 ∧ |(lineAt 0 0 10 0).y1 - 0| ≤ 1/10000) ∧
    ((lineAt 0 0 10 90).x0 = 0 ∧ (lineAt 0 0 10 90).y0 = 0 ∧
      |(lineAt 0 0 10 90).x1 - 0| ≤ 1/10000 ∧ |(lineAt 0 0 10 90).y1 - 10| ≤ 1/10000) ∧
    ((lineAt 0 0 10 180).x0 = 0 ∧ (lineAt 0 0 10 180).y0 = 0 ∧
      |(lineAt 0 0 10 180).x1 - (-10)| ≤ 1/10000 ∧ |(lineAt 0 0 10 180).y1 - 0| ≤ 1/10000) ∧
    ((lineAt 0 0 10 270).x0 = 0 ∧ (lineAt 0 0 10 270).y0 = 0 ∧
      |(lineAt 0 0 10 270).x1 - 0| ≤ 1/10000 ∧ |(lineAt 0 0 10 270).y1 - (-10)| ≤ 1/10000) := by
  refine ⟨fun x0 y0 radius step hstep => generateLines_spec x0 y0 radius step hstep,
    ?_, lineAt_angle_0, lineAt_angle_90, lineAt_angle_180, lineAt_angle_270⟩
  obtain ⟨m, hm, h360, hb⟩ := generateLines_spec 0 0 10 90 (by norm_num)
  have hm4 : m = 4 := by
    rcases Nat.lt_or_ge m 5 with h | h
    · omega
    · exfalso
      have hx := hb 4 (by omega)
      norm_num at hx
  subst hm4
  rw [hm]
  refine congrArg some ?_
  norm_num [List.range_succ]

/-- Witness for C10's general clause at a concrete positive step. -/
theorem radial_pattern_spec_witness :
    (0 : ℤ) < 120 ∧
      ∃ m : ℕ, generateLines 1 2 7 120 =
          some ((List.range m).map (fun k : ℕ => lineAt 1 2 7 ((k : ℤ) * 120))) ∧
        360 ≤ (m : ℤ) * 120 ∧ ∀ k : ℕ, k < m → (k : ℤ) * 120 < 360 :=
  ⟨by norm_num, radial_pattern_spec.1 1 2 7 120 (by norm_num)⟩

end BresenhamWu
